import Mathlib

/-!
Verification of the elf2uf2 translation core (`src/main.rs`) against its
natural-language specification.

The file `src/main.rs` is embedded directly.  The helper modules
`address_range.rs`, `elf.rs` and `uf2.rs` are declared and used by
`main.rs` but their sources are not in the repository snapshot; the
definitions below that come from them are modelled from the spec and say
so in their doc comments.

Machine integers (`u32`) are modelled as `Nat`; every field of the wire
format is serialized as 4 little-endian bytes, exactly as `zerocopy`
serializes the `#[repr(C)]` header of consecutive little-endian `u32`
fields on the target platform.
-/

namespace Elf2Uf2

/-- Error taxonomy of the core (spec §7): FormatError, RangeError (segment
out of window, or RAM entry-point mismatch), EmptyImageError, IOError.
The source uses `Box<dyn Error>` with message strings; the spec (§9) asks
for a closed tagged type carrying the diagnostic payloads, which is what
we use, keeping the two RangeError shapes distinguishable. -/
inductive Err where
  | formatError : Err
  | rangeSegment (addr len : Nat) : Err
  | rangeEntryPoint (expected actual : Nat) : Err
  | emptyImage : Err
  | ioError : Err
deriving DecidableEq, Repr

/-- `Err.isRangeError`: both RangeError shapes of the spec taxonomy. -/
def Err.isRangeError : Err → Bool
  | .rangeSegment _ _ => true
  | .rangeEntryPoint _ _ => true
  | _ => false

/-- The parsed ELF32 header.  Only the entry point is consumed by
`elf2uf2` in `main.rs`; the program-header table location is abstracted
into the already-scanned segment list of `Input`. -/
structure ElfHeader where
  entry : Nat
deriving DecidableEq, Repr

/-- Modelled from the spec: a program-header entry (`elf.rs` is missing).
Spec §3 ProgramHeaderEntry: type, file offset, target address, file size,
memory size. -/
structure PHEntry where
  p_type : Nat
  file_offset : Nat
  target_addr : Nat
  file_size : Nat
  mem_size : Nat
deriving DecidableEq, Repr

/-- Modelled from the spec: the loadable program-header type tag
(spec §GLOSSARY "PT_LOAD segment"; ELF constant PT_LOAD = 1). -/
def PT_LOAD : Nat := 1

/-- Modelled from the spec: an address window (`address_range.rs` is
missing).  Spec §3 AddressRange: inclusive start, exclusive end. -/
structure AddressRange where
  start : Nat
  stop : Nat
deriving DecidableEq, Repr

/-- Modelled from the spec: the page size (`elf.rs` is missing);
spec §8 fixes it at 256. -/
def PAGE_SIZE : Nat := 256

/-- Modelled from the spec: start of the device's main SRAM window
(`address_range.rs` is missing).  `main.rs` asserts it is page-aligned,
and the RAM-indicator nibble of the entry point is `0x2`. -/
def MAIN_RAM_START : Nat := 0x20000000

/-- Modelled from the spec: legal windows for a RAM-style binary
(spec §4.3: the on-chip SRAM window). -/
def RP2040_ADDRESS_RANGES_RAM : List AddressRange :=
  [⟨MAIN_RAM_START, 0x20042000⟩]

/-- Modelled from the spec: legal windows for a FLASH-style binary
(spec §4.3: the external flash window, plus the SRAM window for
zero-fill data). -/
def RP2040_ADDRESS_RANGES_FLASH : List AddressRange :=
  [⟨0x10000000, 0x15000000⟩, ⟨MAIN_RAM_START, 0x20042000⟩]

/-- Does one window fully contain the half-open interval
`[addr, addr+len)`? -/
def AddressRange.contains (r : AddressRange) (addr len : Nat) : Bool :=
  decide (r.start ≤ addr) && decide (addr + len ≤ r.stop)

/-- Modelled from the spec (§4.3): a candidate `(address, length)` is
valid iff some window of the style's list fully contains it ("fully
contained in one" — never the union of two windows). -/
def checkAddressRange (ranges : List AddressRange) (addr len : Nat) : Bool :=
  ranges.any (fun r => r.contains addr len)

/-- Modelled from the spec (§3): a Fragment — source file offset, byte
count, offset within its page. -/
structure Fragment where
  file_offset : Nat
  bytes : Nat
  page_offset : Nat
deriving DecidableEq, Repr

/-- The ordered page map: key = page-aligned target address (ascending,
unique), value = fragment list (spec §3 PageMap; the source's
`BTreeMap<u32, Vec<PageFragment>>` modelled as a sorted association
list). -/
abbrev PageMap : Type := List (Nat × List Fragment)

/-- Insert one fragment under its page key, keeping keys strictly
ascending and appending to the fragment list of an existing key (the
`BTreeMap` entry/`Vec::push` pattern of the source). -/
def pmInsert (k : Nat) (f : Fragment) : PageMap → PageMap
  | [] => [(k, [f])]
  | (k', fs) :: rest =>
    if k < k' then (k, [f]) :: (k', fs) :: rest
    else if k = k' then (k', fs ++ [f]) :: rest
    else (k', fs) :: pmInsert k f rest

/-- Fuel-based worker for `splitFrags` (the fuel only makes the
recursion structural; `splitFrags` supplies enough of it that the
fuel-exhausted case never fires, since each step consumes at least one
byte of `remaining`). -/
def splitFragsGo : Nat → Nat → Nat → Nat → List (Nat × Fragment)
  | _, _, _, 0 => []
  | 0, _, _, _ => []
  | fuel + 1, fileOff, addr, remaining =>
    let page := addr / PAGE_SIZE * PAGE_SIZE
    let off := addr % PAGE_SIZE
    let len := min remaining (PAGE_SIZE - off)
    (page, ⟨fileOff, len, off⟩) :: splitFragsGo fuel (fileOff + len) (addr + len) (remaining - len)

/-- Modelled from the spec (§4.2 step 3, `elf.rs` is missing): split a
segment's byte range at page boundaries, yielding `(page address,
fragment)` pairs in ascending address order. -/
def splitFrags (fileOff addr remaining : Nat) : List (Nat × Fragment) :=
  splitFragsGo remaining fileOff addr remaining

/-- Add all fragments of one loadable segment to the page map. -/
def addSegment (pm : PageMap) (e : PHEntry) : PageMap :=
  (splitFrags e.file_offset e.target_addr e.file_size).foldl
    (fun pm kf => pmInsert kf.1 kf.2 pm) pm

/-- Modelled from the spec (§4.2 steps 2–3, `elf.rs` is missing): walk
the program-header entries; every entry with loadable type and nonzero
memory size must have `[target, target+file_size)` inside one legal
window, else RangeError; its file-backed bytes are split at page
boundaries into the page map. -/
def phScanGo (ranges : List AddressRange) : PageMap → List PHEntry → Except Err PageMap
  | pm, [] => .ok pm
  | pm, e :: rest =>
    if e.p_type == PT_LOAD && decide (0 < e.mem_size) then
      if checkAddressRange ranges e.target_addr e.file_size then
        phScanGo ranges (addSegment pm e) rest
      else .error (.rangeSegment e.target_addr e.file_size)
    else phScanGo ranges pm rest

/-- Modelled from the spec (§4.2, `elf.rs` is missing): the page builder
entry point, starting from an empty page map. -/
def read_and_check_elf32_ph_entries (segs : List PHEntry) (ranges : List AddressRange) :
    Except Err PageMap :=
  phScanGo ranges [] segs

/-- The whole input, as seen after header parsing: the parsed header, the
scanned program-header entries, and the raw file bytes (for fragment
materialization). -/
structure Input where
  header : ElfHeader
  segments : List PHEntry
  file : List Nat
deriving DecidableEq, Repr

/-- Read `len` bytes at `off` from the input file; spec §4.4: any
seek/read failure is an IOError. -/
def readFile (file : List Nat) (off len : Nat) : Except Err (List Nat) :=
  if off + len ≤ file.length then .ok ((file.drop off).take len) else .error .ioError

/-- Overwrite `buf` at position `pos` with the bytes of `src`. -/
def writeAt (buf : List Nat) (pos : Nat) (src : List Nat) : List Nat :=
  buf.take pos ++ src ++ buf.drop (pos + src.length)

/-- Modelled from the spec (§4.4, `elf.rs` is missing): `realize_page` —
for each fragment, read its bytes from the file and copy them into the
buffer at its in-page offset.  The buffer is NOT zeroed here; `main.rs`
zeroes it before each call. -/
def realize_page (file : List Nat) (frags : List Fragment) (buf : List Nat) :
    Except Err (List Nat) :=
  match frags with
  | [] => .ok buf
  | f :: rest =>
    match readFile file f.file_offset f.bytes with
    | .error e => .error e
    | .ok bs => realize_page file rest (writeAt buf f.page_offset bs)

/-- Modelled from the spec: wire constant, first start magic
(`uf2.rs` is missing; spec §6 "fixed constant"). -/
def UF2_MAGIC_START0 : Nat := 0x0A324655

/-- Modelled from the spec: wire constant, second start magic. -/
def UF2_MAGIC_START1 : Nat := 0x9E5D5157

/-- Modelled from the spec: wire constant, end magic. -/
def UF2_MAGIC_END : Nat := 0x0AB16F30

/-- Modelled from the spec: flag bit marking the family identifier as
present (spec §6 flags field). -/
def UF2_FLAG_FAMILY_ID_PRESENT : Nat := 0x00002000

/-- Modelled from the spec: the fixed format-family identifier of the
target device family. -/
def RP2040_FAMILY_ID : Nat := 0xE48BFF56

/-- The UF2 block header of `main.rs` (struct declared in the missing
`uf2.rs`, but constructed field by field in `main.rs` lines 104–113):
eight consecutive `u32` fields. -/
structure Uf2BlockHeader where
  magic_start0 : Nat
  magic_start1 : Nat
  flags : Nat
  target_addr : Nat
  payload_size : Nat
  block_no : Nat
  num_blocks : Nat
  file_size : Nat
deriving DecidableEq, Repr

/-- One emitted block: header fields plus the 476-byte data region. -/
structure Uf2Block where
  header : Uf2BlockHeader
  data : List Nat
deriving DecidableEq, Repr

/-- Four little-endian bytes of a 32-bit value. -/
def le32 (n : Nat) : List Nat :=
  [n % 256, n / 256 % 256, n / 65536 % 256, n / 16777216 % 256]

/-- Serialization of the block header: the eight `u32` fields in
declaration order, each little-endian (`zerocopy::AsBytes` on the
`#[repr(C)]` struct). -/
def headerBytes (h : Uf2BlockHeader) : List Nat :=
  le32 h.magic_start0 ++ le32 h.magic_start1 ++ le32 h.flags ++ le32 h.target_addr ++
    le32 h.payload_size ++ le32 h.block_no ++ le32 h.num_blocks ++ le32 h.file_size

/-- Serialization of the block footer: the end magic. -/
def footerBytes : List Nat := le32 UF2_MAGIC_END

/-- One event on the output stream: a `write_all` or a `flush`. -/
inductive OutEvent where
  | write (bs : List Nat)
  | flush
deriving DecidableEq, Repr

/-- The four output-stream events of one block in `main.rs` lines
154–157: header bytes, data bytes, footer bytes, flush. -/
def blockEvents (b : Uf2Block) : List OutEvent :=
  [.write (headerBytes b.header), .write b.data, .write footerBytes, .flush]

/-- One console effect: a `println!` line or a progress-bar advance. -/
inductive ConsoleEvent where
  | line (s : String)
  | pbAdd (n : Nat)
deriving DecidableEq, Repr

/-- The configuration flags of `Opts` consumed by `elf2uf2`. -/
structure Opts where
  verbose : Bool
  deploy : Bool
deriving DecidableEq, Repr

/-- The per-page verbose diagnostic line of `main.rs` lines 141–148. -/
def pageLine (pageNum numBlocks addr : Nat) : String :=
  "Page " ++ toString pageNum ++ " / " ++ toString numBlocks ++ " " ++ toString addr

/-- The block header as initialized in `main.rs` lines 104–113 and
updated per page in lines 138–139. -/
def mkHeader (addr pageNum numBlocks : Nat) : Uf2BlockHeader :=
  { magic_start0 := UF2_MAGIC_START0
    magic_start1 := UF2_MAGIC_START1
    flags := UF2_FLAG_FAMILY_ID_PRESENT
    target_addr := addr
    payload_size := PAGE_SIZE
    block_no := pageNum
    num_blocks := numBlocks
    file_size := RP2040_FAMILY_ID }

/-- The encoding loop of `main.rs` lines 137–164: for each page, zero the
reused data buffer, materialize the page, emit the block, advance the
progress bar.  Returns the result, the emitted blocks in emission order,
the console effects, and the final buffer state (the buffer is threaded
to model the source's single reused `block_data`). -/
def encodeGo (opts : Opts) (file : List Nat) (numBlocks lastPage : Nat) :
    Nat → List Nat → PageMap →
    Except Err Unit × List Uf2Block × List ConsoleEvent × List Nat
  | _, buf, [] => (.ok (), [], [], buf)
  | pageNum, buf, (addr, frags) :: rest =>
    let console1 : List ConsoleEvent :=
      if opts.verbose then [.line (pageLine pageNum numBlocks addr)] else []
    let bufz := buf.map (fun _ => 0)
    match realize_page file frags bufz with
    | .error e => (.error e, [], console1, bufz)
    | .ok buf1 =>
      let blk : Uf2Block := ⟨mkHeader addr pageNum numBlocks, buf1⟩
      let consolePb : List ConsoleEvent :=
        if !opts.verbose && opts.deploy && pageNum != lastPage then [.pbAdd 512] else []
      let out := encodeGo opts file numBlocks lastPage (pageNum + 1) buf1 rest
      (out.1, blk :: out.2.1, console1 ++ consolePb ++ out.2.2.1, out.2.2.2)

/-- The observable outcome of one `elf2uf2` run: the returned result, the
blocks written (and flushed) to the output stream, and the console
effects. -/
structure Runout where
  result : Except Err Unit
  blocks : List Uf2Block
  console : List ConsoleEvent
deriving Repr

instance {α β : Type} [DecidableEq α] [DecidableEq β] : DecidableEq (Except α β) :=
  fun a b =>
  match a, b with
  | .ok x, .ok y =>
    if h : x = y then isTrue (by rw [h]) else isFalse (by intro hc; cases hc; exact h rfl)
  | .error e, .error e' =>
    if h : e = e' then isTrue (by rw [h]) else isFalse (by intro hc; cases hc; exact h rfl)
  | .ok _, .error _ => isFalse (by intro hc; cases hc)
  | .error _, .ok _ => isFalse (by intro hc; cases hc)

instance : DecidableEq Runout := fun a b =>
  if h : a.result = b.result ∧ a.blocks = b.blocks ∧ a.console = b.console then
    isTrue (by cases a; cases b; simp_all)
  else
    isFalse (by intro hc; cases hc; simp_all)

/-- First key of the page map (`pages.keys().next().unwrap()`; only
evaluated after the non-emptiness check, so the default never fires). -/
def firstKey : PageMap → Nat
  | [] => 0
  | (k, _) :: _ => k

/-- The RAM-style classification of `main.rs` line 69:
`0x2 == eh.entry >> 28`. -/
def ramStyle (eh : ElfHeader) : Bool :=
  eh.entry >>> 28 == 0x2

/-- The address-range set selected in `main.rs` lines 79–83. -/
def validRangesFor (eh : ElfHeader) : List AddressRange :=
  if ramStyle eh then RP2040_ADDRESS_RANGES_RAM else RP2040_ADDRESS_RANGES_FLASH

/-- The translation core, `elf2uf2` of `main.rs` lines 66–174: classify
the style from the entry point, scan and validate the program headers
into the page map, reject an empty image, check the RAM entry point, then
encode every page. -/
def elf2uf2 (opts : Opts) (inp : Input) : Runout :=
  let eh := inp.header
  let ram_style := ramStyle eh
  let console0 : List ConsoleEvent :=
    if opts.verbose then
      [.line (if ram_style then "Detected RAM binary" else "Detected FLASH binary")]
    else []
  let valid_ranges := validRangesFor eh
  match read_and_check_elf32_ph_entries inp.segments valid_ranges with
  | .error e => ⟨.error e, [], console0⟩
  | .ok pages =>
    if pages.isEmpty then ⟨.error .emptyImage, [], console0⟩
    else
      let expected_ep := firstKey pages ||| 0x1
      if ram_style && eh.entry != expected_ep then
        ⟨.error (.rangeEntryPoint expected_ep eh.entry), [], console0⟩
      else
        let console1 := console0 ++
          (if opts.deploy then [ConsoleEvent.line "Transfering program to pico"] else [])
        let out := encodeGo opts inp.file pages.length (pages.length - 1) 0
          (List.replicate 476 0) pages
        match out.1 with
        | .error e => ⟨.error e, out.2.1, console1 ++ out.2.2.1⟩
        | .ok _ =>
          let consoleEnd : List ConsoleEvent :=
            if !opts.verbose && opts.deploy then [.pbAdd 512] else []
          ⟨.ok (), out.2.1, console1 ++ out.2.2.1 ++ consoleEnd⟩

/-- The byte stream of a sequence of output events (writes concatenated;
a flush writes nothing of its own). -/
def eventsBytes : List OutEvent → List Nat
  | [] => []
  | .write bs :: rest => bs ++ eventsBytes rest
  | .flush :: rest => eventsBytes rest

/-- The output-stream event trace of a run. -/
def Runout.events (ro : Runout) : List OutEvent :=
  (ro.blocks.map blockEvents).flatten

/-- The output-file lifecycle of `main` (`main.rs` lines 253–296): create
the output file, run `elf2uf2` into it; on error, delete the file before
propagating.  Returns the propagated result and the surviving output
file's contents (if the file survives). -/
def mainModel (opts : Opts) (inp : Input) : Except Err Unit × Option (List Nat) :=
  let ro := elf2uf2 opts inp
  match ro.result with
  | .error e => (.error e, none)
  | .ok _ => (.ok (), some (eventsBytes ro.events))

/-! ### Helper functions used only by the statements of the theorems -/

/-- Fragments that fit inside one page (spec §3 PageMap invariant:
"fragments within one page never overlap and never exceed page
bounds"). -/
def fragsBounded (fs : List Fragment) : Prop :=
  ∀ f ∈ fs, f.page_offset + f.bytes ≤ PAGE_SIZE

/-- All fragment lists of a page map fit inside one page. -/
def pmBounded (pm : PageMap) : Prop :=
  ∀ p ∈ pm, fragsBounded p.2

/-- Position `j` of the data buffer is touched by none of the fragments
of a page. -/
def uncovered (fs : List Fragment) (j : Nat) : Prop :=
  ∀ f ∈ fs, j < f.page_offset ∨ f.page_offset + f.bytes ≤ j

/-- The materialized data of one page, starting from a fresh zero buffer
(empty list on a read failure; used only in statements about successful
materializations). -/
def pageDataD (file : List Nat) (frags : List Fragment) : List Nat :=
  match realize_page file frags (List.replicate 476 0) with
  | .ok d => d
  | .error _ => []

/-- Spec-side description of the wire traffic of a whole run (spec §4.5
and §6): for the `i`-th page of the map, one write of the eight header
fields in wire order — start magic 0, start magic 1, the
family-id-present flag, the page's target address, the payload size
(= page size), the block index `i`, the total block count, the family
identifier — each as 4 little-endian bytes, then one write of the
materialized 476-byte data buffer, then one write of the end magic, then
a flush. -/
def wireEvents (file : List Nat) (total : Nat) (pm : PageMap) : List OutEvent :=
  (pm.enumFrom 0 |>.map (fun p =>
    [OutEvent.write (le32 UF2_MAGIC_START0 ++ le32 UF2_MAGIC_START1 ++
        le32 UF2_FLAG_FAMILY_ID_PRESENT ++ le32 p.2.1 ++ le32 PAGE_SIZE ++
        le32 p.1 ++ le32 total ++ le32 RP2040_FAMILY_ID),
      OutEvent.write (pageDataD file p.2.2),
      OutEvent.write (le32 UF2_MAGIC_END),
      OutEvent.flush])).flatten

/-- A tiny concrete FLASH-style input used to instantiate theorems: entry
point `0x10000001` (top nibble 1, so FLASH), one loadable segment of four
bytes at the start of the flash window. -/
def exFlash : Input :=
  { header := ⟨0x10000001⟩
    segments := [⟨1, 0, 0x10000000, 4, 4⟩]
    file := [1, 2, 3, 4] }

/-- A concrete RAM-style input whose entry point (`0x20000003`) does not
equal the lowest page address with the low bit set (`0x20000001`). -/
def exRamBad : Input :=
  { header := ⟨0x20000003⟩
    segments := [⟨1, 0, 0x20000000, 4, 4⟩]
    file := [9, 9, 9, 9] }

/-- A concrete input with one non-loadable program-header entry, hence an
empty page map. -/
def exEmpty : Input :=
  { header := ⟨0x10000001⟩
    segments := [⟨0, 0, 0, 0, 0⟩]
    file := [] }

/-- Default options: not verbose, no deploy. -/
def exOpts : Opts := ⟨false, false⟩

/-! ### Lemmas about reading, writing and materialization -/

theorem readFile_ok_length {file : List Nat} {off len : Nat} {bs : List Nat}
    (h : readFile file off len = .ok bs) : bs.length = len := by
  unfold readFile at h
  split at h
  · cases h
    simp only [List.length_take, List.length_drop]
    omega
  · cases h

theorem writeAt_length {buf src : List Nat} {pos : Nat}
    (h : pos + src.length ≤ buf.length) :
    (writeAt buf pos src).length = buf.length := by
  unfold writeAt
  simp only [List.length_append, List.length_take, List.length_drop]
  omega

theorem writeAt_getD_untouched {buf src : List Nat} {pos j : Nat}
    (hfit : pos + src.length ≤ buf.length)
    (hj : j < pos ∨ pos + src.length ≤ j) :
    (writeAt buf pos src).getD j 0 = buf.getD j 0 := by
  unfold writeAt
  have h1 : (buf.take pos).length = pos := by
    simp only [List.length_take]
    omega
  have h2 : (buf.take pos ++ src).length = pos + src.length := by
    simp only [List.length_append, h1]
  rcases hj with hj | hj
  · have hlt : j < (buf.take pos).length := by omega
    rw [List.getD_eq_getElem?_getD, List.getElem?_append_left (by rw [h2]; omega),
      List.getElem?_append_left hlt,
      List.getElem?_take_of_lt hj, ← List.getD_eq_getElem?_getD]
  · rw [List.getD_eq_getElem?_getD,
      List.getElem?_append_right (by rw [h2]; omega),
      h2, List.getElem?_drop, ← List.getD_eq_getElem?_getD]
    congr 1
    omega

theorem realize_page_err {file : List Nat} {frags : List Fragment} {buf : List Nat} {e : Err}
    (h : realize_page file frags buf = .error e) : e = .ioError := by
  induction frags generalizing buf with
  | nil => cases h
  | cons f rest ih =>
    unfold realize_page at h
    cases hr : readFile file f.file_offset f.bytes with
    | error e' =>
      rw [hr] at h
      unfold readFile at hr
      split at hr
      · cases hr
      · cases hr; cases h; rfl
    | ok bs =>
      rw [hr] at h
      exact ih h

theorem realize_page_ok_length {file : List Nat} {frags : List Fragment} {buf d : List Nat}
    (hb : fragsBounded frags) (hlen : PAGE_SIZE ≤ buf.length)
    (h : realize_page file frags buf = .ok d) : d.length = buf.length := by
  induction frags generalizing buf with
  | nil => cases h; rfl
  | cons f rest ih =>
    unfold realize_page at h
    cases hr : readFile file f.file_offset f.bytes with
    | error e' => rw [hr] at h; cases h
    | ok bs =>
      rw [hr] at h
      have hbsl : bs.length = f.bytes := readFile_ok_length hr
      have hfit : f.page_offset + bs.length ≤ buf.length := by
        have := hb f (by simp)
        omega
      have hrec := ih (fun g hg => hb g (by simp [hg])) (by rw [writeAt_length hfit]; omega) h
      rw [hrec, writeAt_length hfit]

theorem realize_page_ok_untouched {file : List Nat} {frags : List Fragment} {buf d : List Nat}
    {j : Nat} (hb : fragsBounded frags) (hlen : PAGE_SIZE ≤ buf.length)
    (hu : uncovered frags j)
    (h : realize_page file frags buf = .ok d) : d.getD j 0 = buf.getD j 0 := by
  induction frags generalizing buf with
  | nil => cases h; rfl
  | cons f rest ih =>
    unfold realize_page at h
    cases hr : readFile file f.file_offset f.bytes with
    | error e' => rw [hr] at h; cases h
    | ok bs =>
      rw [hr] at h
      have hbsl : bs.length = f.bytes := readFile_ok_length hr
      have hfit : f.page_offset + bs.length ≤ buf.length := by
        have := hb f (by simp)
        omega
      have hrec := ih (fun g hg => hb g (by simp [hg]))
        (by rw [writeAt_length hfit]; omega)
        (fun g hg => hu g (by simp [hg])) h
      rw [hrec, writeAt_getD_untouched hfit]
      have := hu f (by simp)
      omega

/-! ### Lemmas about the page map built by the program-header scan -/

theorem splitFragsGo_bounded {fuel fileOff addr remaining : Nat} :
    ∀ p ∈ splitFragsGo fuel fileOff addr remaining,
      p.2.page_offset + p.2.bytes ≤ PAGE_SIZE := by
  induction fuel generalizing fileOff addr remaining with
  | zero =>
    intro p hp
    cases remaining <;> simp [splitFragsGo] at hp
  | succ fuel ih =>
    intro p hp
    cases remaining with
    | zero => simp [splitFragsGo] at hp
    | succ r =>
      simp only [splitFragsGo, List.mem_cons] at hp
      rcases hp with hp | hp
      · subst hp
        have hoff : addr % PAGE_SIZE < PAGE_SIZE := Nat.mod_lt _ (by decide)
        simp only
        omega
      · exact ih p hp

theorem splitFrags_bounded {fileOff addr remaining : Nat} :
    ∀ p ∈ splitFrags fileOff addr remaining,
      p.2.page_offset + p.2.bytes ≤ PAGE_SIZE :=
  splitFragsGo_bounded

theorem keys_pmInsert_mem {k : Nat} {f : Fragment} {pm : PageMap} {y : Nat}
    (h : y ∈ (pmInsert k f pm).map Prod.fst) : y = k ∨ y ∈ pm.map Prod.fst := by
  induction pm with
  | nil => simp [pmInsert] at h; simp [h]
  | cons p rest ih =>
    obtain ⟨k', fs⟩ := p
    unfold pmInsert at h
    split at h
    · simp only [List.map_cons, List.mem_cons] at h ⊢
      tauto
    · split at h
      · simp only [List.map_cons, List.mem_cons] at h ⊢
        tauto
      · simp only [List.map_cons, List.mem_cons] at h ⊢
        rcases h with h | h
        · tauto
        · rcases ih h with h | h <;> tauto

theorem pmInsert_sorted {k : Nat} {f : Fragment} {pm : PageMap}
    (h : List.Sorted (· < ·) (pm.map Prod.fst)) :
    List.Sorted (· < ·) ((pmInsert k f pm).map Prod.fst) := by
  induction pm with
  | nil => simp [pmInsert]
  | cons p rest ih =>
    obtain ⟨k', fs⟩ := p
    simp only [List.map_cons, List.sorted_cons] at h
    unfold pmInsert
    split
    · simp only [List.map_cons, List.sorted_cons, List.mem_cons]
      refine ⟨?_, h.1, h.2⟩
      intro b hb
      rcases hb with hb | hb
      · omega
      · have := h.1 b hb
        omega
    · split
      · simp only [List.map_cons, List.sorted_cons]
        exact h
      · simp only [List.map_cons, List.sorted_cons]
        refine ⟨?_, ih h.2⟩
        intro b hb
        rcases keys_pmInsert_mem hb with hb | hb
        · omega
        · exact h.1 b hb

theorem pmInsert_bounded {k : Nat} {f : Fragment} {pm : PageMap}
    (hf : f.page_offset + f.bytes ≤ PAGE_SIZE) (h : pmBounded pm) :
    pmBounded (pmInsert k f pm) := by
  induction pm with
  | nil =>
    intro p hp
    simp only [pmInsert, List.mem_singleton] at hp
    subst hp
    intro g hg
    simp only [List.mem_singleton] at hg
    subst hg
    exact hf
  | cons q rest ih =>
    obtain ⟨k', fs⟩ := q
    intro p hp
    unfold pmInsert at hp
    split at hp
    · simp only [List.mem_cons] at hp
      rcases hp with hp | hp
      · subst hp
        intro g hg
        simp only [List.mem_singleton] at hg
        subst hg
        exact hf
      · exact h p (by simp only [List.mem_cons]; exact hp)
    · split at hp
      · simp only [List.mem_cons] at hp
        rcases hp with hp | hp
        · subst hp
          intro g hg
          rcases List.mem_append.mp hg with hg | hg
          · exact h ⟨k', fs⟩ (by simp) g hg
          · simp only [List.mem_singleton] at hg
            subst hg
            exact hf
        · exact h p (by simp [hp])
      · simp only [List.mem_cons] at hp
        rcases hp with hp | hp
        · subst hp
          exact h ⟨k', fs⟩ (by simp)
        · exact ih (fun q hq => h q (by simp [hq])) p hp

theorem foldl_pmInsert_sorted {l : List (Nat × Fragment)} {pm : PageMap}
    (h : List.Sorted (· < ·) (pm.map Prod.fst)) :
    List.Sorted (· < ·)
      ((l.foldl (fun pm kf => pmInsert kf.1 kf.2 pm) pm).map Prod.fst) := by
  induction l generalizing pm with
  | nil => exact h
  | cons kf rest ih => exact ih (pmInsert_sorted h)

theorem foldl_pmInsert_bounded {l : List (Nat × Fragment)} {pm : PageMap}
    (hl : ∀ p ∈ l, p.2.page_offset + p.2.bytes ≤ PAGE_SIZE) (h : pmBounded pm) :
    pmBounded (l.foldl (fun pm kf => pmInsert kf.1 kf.2 pm) pm) := by
  induction l generalizing pm with
  | nil => exact h
  | cons kf rest ih =>
    exact ih (fun p hp => hl p (by simp [hp]))
      (pmInsert_bounded (hl kf (by simp)) h)

theorem addSegment_sorted {pm : PageMap} {e : PHEntry}
    (h : List.Sorted (· < ·) (pm.map Prod.fst)) :
    List.Sorted (· < ·) ((addSegment pm e).map Prod.fst) :=
  foldl_pmInsert_sorted h

theorem addSegment_bounded {pm : PageMap} {e : PHEntry} (h : pmBounded pm) :
    pmBounded (addSegment pm e) :=
  foldl_pmInsert_bounded (fun p hp => splitFrags_bounded p hp) h

theorem phScanGo_sorted {ranges : List AddressRange} {segs : List PHEntry}
    {pm pm' : PageMap} (h : List.Sorted (· < ·) (pm.map Prod.fst))
    (hr : phScanGo ranges pm segs = .ok pm') :
    List.Sorted (· < ·) (pm'.map Prod.fst) := by
  induction segs generalizing pm with
  | nil => cases hr; exact h
  | cons e rest ih =>
    unfold phScanGo at hr
    split at hr
    · split at hr
      · exact ih (addSegment_sorted h) hr
      · cases hr
    · exact ih h hr

theorem phScanGo_bounded {ranges : List AddressRange} {segs : List PHEntry}
    {pm pm' : PageMap} (h : pmBounded pm)
    (hr : phScanGo ranges pm segs = .ok pm') : pmBounded pm' := by
  induction segs generalizing pm with
  | nil => cases hr; exact h
  | cons e rest ih =>
    unfold phScanGo at hr
    split at hr
    · split at hr
      · exact ih (addSegment_bounded h) hr
      · cases hr
    · exact ih h hr

theorem phScan_sorted {segs : List PHEntry} {ranges : List AddressRange} {pm : PageMap}
    (hr : read_and_check_elf32_ph_entries segs ranges = .ok pm) :
    List.Sorted (· < ·) (pm.map Prod.fst) :=
  phScanGo_sorted (by simp) hr

theorem phScan_bounded {segs : List PHEntry} {ranges : List AddressRange} {pm : PageMap}
    (hr : read_and_check_elf32_ph_entries segs ranges = .ok pm) :
    pmBounded pm :=
  phScanGo_bounded (fun p hp => by cases hp) hr

theorem phScanGo_err {ranges : List AddressRange} {segs : List PHEntry}
    {pm : PageMap} {e : Err} (hr : phScanGo ranges pm segs = .error e) :
    ∃ a l, e = .rangeSegment a l := by
  induction segs generalizing pm with
  | nil => cases hr
  | cons s rest ih =>
    unfold phScanGo at hr
    split at hr
    · split at hr
      · exact ih hr
      · cases hr
        exact ⟨_, _, rfl⟩
    · exact ih hr

/-! ### Lemmas about the encoding loop -/

theorem encodeGo_err {opts : Opts} {file : List Nat} {N L pn : Nat} {buf : List Nat}
    {pm : PageMap} {e : Err}
    (h : (encodeGo opts file N L pn buf pm).1 = .error e) : e = .ioError := by
  induction pm generalizing pn buf with
  | nil => cases h
  | cons p rest ih =>
    obtain ⟨addr, frags⟩ := p
    cases hr : realize_page file frags (buf.map (fun _ => 0)) with
    | error e' =>
      simp only [encodeGo, hr] at h
      cases h
      exact realize_page_err hr
    | ok buf1 =>
      simp only [encodeGo, hr] at h
      exact ih h

theorem encodeGo_opts {opts opts' : Opts} {file : List Nat} {N L pn : Nat}
    {buf : List Nat} {pm : PageMap} :
    (encodeGo opts file N L pn buf pm).1 = (encodeGo opts' file N L pn buf pm).1 ∧
      (encodeGo opts file N L pn buf pm).2.1 = (encodeGo opts' file N L pn buf pm).2.1 := by
  induction pm generalizing pn buf with
  | nil => exact ⟨rfl, rfl⟩
  | cons p rest ih =>
    obtain ⟨addr, frags⟩ := p
    cases hr : realize_page file frags (buf.map (fun _ => 0)) with
    | error e' =>
      simp only [encodeGo, hr]
      exact ⟨trivial, trivial⟩
    | ok buf1 =>
      simp only [encodeGo, hr]
      exact ⟨ih.1, by rw [ih.2]⟩

theorem encodeGo_prefix_targets (opts : Opts) {file : List Nat} {N L pn : Nat}
    {buf : List Nat} {pm : PageMap} :
    (encodeGo opts file N L pn buf pm).2.1.map (fun b => b.header.target_addr)
      <+: pm.map Prod.fst := by
  induction pm generalizing pn buf with
  | nil => simp [encodeGo]
  | cons p rest ih =>
    obtain ⟨addr, frags⟩ := p
    cases hr : realize_page file frags (buf.map (fun _ => 0)) with
    | error e' =>
      simp only [encodeGo, hr, List.map_nil]
      exact List.nil_prefix
    | ok buf1 =>
      simp only [encodeGo, hr, List.map_cons, mkHeader]
      exact List.prefix_cons_inj addr |>.mpr ih

theorem encodeGo_prefix_append {opts : Opts} {file : List Nat} {N L pn : Nat}
    {buf : List Nat} {l1 l2 : PageMap} :
    (encodeGo opts file N L pn buf l1).2.1 <+:
      (encodeGo opts file N L pn buf (l1 ++ l2)).2.1 := by
  induction l1 generalizing pn buf with
  | nil => simp [encodeGo]
  | cons p rest ih =>
    obtain ⟨addr, frags⟩ := p
    cases hr : realize_page file frags (buf.map (fun _ => 0)) with
    | error e' =>
      simp only [List.cons_append, encodeGo, hr]
      exact List.nil_prefix
    | ok buf1 =>
      simp only [List.cons_append, encodeGo, hr]
      exact List.prefix_cons_inj _ |>.mpr ih

theorem encodeGo_ok_blocks {opts : Opts} {file : List Nat} {N L : Nat}
    {pm : PageMap} :
    ∀ {pn : Nat} {buf : List Nat}, buf.length = 476 → pmBounded pm →
    (encodeGo opts file N L pn buf pm).1 = .ok () →
    (encodeGo opts file N L pn buf pm).2.1 =
      (pm.enumFrom pn).map (fun p =>
        ⟨mkHeader p.2.1 p.1 N, pageDataD file p.2.2⟩) := by
  induction pm with
  | nil => intro pn buf _ _ _; rfl
  | cons p rest ih =>
    intro pn buf hbuf hbd hok
    obtain ⟨addr, frags⟩ := p
    have hz : buf.map (fun _ => 0) = List.replicate 476 0 := by
      rw [List.map_const', hbuf]
    cases hr : realize_page file frags (buf.map (fun _ => 0)) with
    | error e' =>
      simp only [encodeGo, hr] at hok
      cases hok
    | ok buf1 =>
      simp only [encodeGo, hr] at hok ⊢
      have hfb : fragsBounded frags := hbd ⟨addr, frags⟩ (by simp)
      have hb1 : buf1.length = 476 := by
        have := realize_page_ok_length hfb
          (by rw [hz, List.length_replicate]; decide) hr
        rw [this, List.length_map, hbuf]
      have hpd : pageDataD file frags = buf1 := by
        unfold pageDataD
        rw [← hz, hr]
      rw [List.enumFrom, List.map_cons, hpd,
        ih hb1 (fun q hq => hbd q (by simp [hq])) hok]

theorem encodeGo_ok_length {opts : Opts} {file : List Nat} {N L pn : Nat}
    {buf : List Nat} {pm : PageMap} (hbuf : buf.length = 476) (hbd : pmBounded pm)
    (hok : (encodeGo opts file N L pn buf pm).1 = .ok ()) :
    (encodeGo opts file N L pn buf pm).2.1.length = pm.length := by
  rw [encodeGo_ok_blocks hbuf hbd hok, List.length_map, List.enumFrom_length]

theorem encodeGo_mem {opts : Opts} {file : List Nat} {N L : Nat} {pm : PageMap} :
    ∀ {pn : Nat} {buf : List Nat}, buf.length = 476 → pmBounded pm →
    ∀ b ∈ (encodeGo opts file N L pn buf pm).2.1,
      ∃ fs, (b.header.target_addr, fs) ∈ pm ∧
        realize_page file fs (List.replicate 476 0) = .ok b.data := by
  induction pm with
  | nil => intro pn buf _ _ b hb; simp [encodeGo] at hb
  | cons p rest ih =>
    intro pn buf hbuf hbd b hb
    obtain ⟨addr, frags⟩ := p
    have hz : buf.map (fun _ => 0) = List.replicate 476 0 := by
      rw [List.map_const', hbuf]
    cases hr : realize_page file frags (buf.map (fun _ => 0)) with
    | error e' =>
      simp only [encodeGo, hr] at hb
      cases hb
    | ok buf1 =>
      simp only [encodeGo, hr, List.mem_cons] at hb
      rcases hb with hb | hb
      · subst hb
        refine ⟨frags, by simp [mkHeader], ?_⟩
        rw [← hz]
        exact hr
      · have hfb : fragsBounded frags := hbd ⟨addr, frags⟩ (by simp)
        have hb1 : buf1.length = 476 := by
          have := realize_page_ok_length hfb
            (by rw [hz, List.length_replicate]; decide) hr
          rw [this, List.length_map, hbuf]
        obtain ⟨fs, hmem, hrl⟩ := ih hb1 (fun q hq => hbd q (by simp [hq])) b hb
        exact ⟨fs, by simp [hmem], hrl⟩

theorem encodeGo_ok_realize {opts : Opts} {file : List Nat} {N L : Nat} {pm : PageMap} :
    ∀ {pn : Nat} {buf : List Nat}, buf.length = 476 → pmBounded pm →
    (encodeGo opts file N L pn buf pm).1 = .ok () →
    ∀ p ∈ pm, ∃ d, realize_page file p.2 (List.replicate 476 0) = .ok d := by
  induction pm with
  | nil => intro pn buf _ _ _ p hp; cases hp
  | cons q rest ih =>
    intro pn buf hbuf hbd hok p hp
    obtain ⟨addr, frags⟩ := q
    have hz : buf.map (fun _ => 0) = List.replicate 476 0 := by
      rw [List.map_const', hbuf]
    cases hr : realize_page file frags (buf.map (fun _ => 0)) with
    | error e' =>
      simp only [encodeGo, hr] at hok
      cases hok
    | ok buf1 =>
      simp only [encodeGo, hr] at hok
      have hfb : fragsBounded frags := hbd ⟨addr, frags⟩ (by simp)
      have hb1 : buf1.length = 476 := by
        have := realize_page_ok_length hfb
          (by rw [hz, List.length_replicate]; decide) hr
        rw [this, List.length_map, hbuf]
      simp only [List.mem_cons] at hp
      rcases hp with hp | hp
      · subst hp
        exact ⟨buf1, by rw [← hz]; exact hr⟩
      · exact ih hb1 (fun q hq => hbd q (by simp [hq])) hok p hp

/-! ### Branch lemmas for `elf2uf2` -/

theorem elf2uf2_scan_err (opts : Opts) (inp : Input) {e : Err}
    (h : read_and_check_elf32_ph_entries inp.segments (validRangesFor inp.header)
      = .error e) :
    (elf2uf2 opts inp).result = .error e ∧ (elf2uf2 opts inp).blocks = [] := by
  constructor <;> simp [elf2uf2, h]

theorem elf2uf2_empty (opts : Opts) (inp : Input)
    (h : read_and_check_elf32_ph_entries inp.segments (validRangesFor inp.header)
      = .ok []) :
    (elf2uf2 opts inp).result = .error .emptyImage ∧ (elf2uf2 opts inp).blocks = [] := by
  constructor <;> simp [elf2uf2, h]

theorem elf2uf2_ram_err (opts : Opts) (inp : Input) {pm : PageMap}
    (h : read_and_check_elf32_ph_entries inp.segments (validRangesFor inp.header)
      = .ok pm)
    (hne : pm.isEmpty = false)
    (hram : (ramStyle inp.header && inp.header.entry != (firstKey pm ||| 0x1)) = true) :
    (elf2uf2 opts inp).result
        = .error (.rangeEntryPoint (firstKey pm ||| 0x1) inp.header.entry) ∧
      (elf2uf2 opts inp).blocks = [] := by
  constructor <;> simp [elf2uf2, h, hne, hram]

theorem elf2uf2_encode (opts : Opts) (inp : Input) {pm : PageMap}
    (h : read_and_check_elf32_ph_entries inp.segments (validRangesFor inp.header)
      = .ok pm)
    (hne : pm.isEmpty = false)
    (hram : (ramStyle inp.header && inp.header.entry != (firstKey pm ||| 0x1)) = false) :
    (elf2uf2 opts inp).result
        = (encodeGo opts inp.file pm.length (pm.length - 1) 0 (List.replicate 476 0) pm).1 ∧
      (elf2uf2 opts inp).blocks
        = (encodeGo opts inp.file pm.length (pm.length - 1) 0 (List.replicate 476 0) pm).2.1 := by
  cases hr : (encodeGo opts inp.file pm.length (pm.length - 1) 0 (List.replicate 476 0) pm).1 with
  | error e => constructor <;> simp only [elf2uf2, h, hne, hram, Bool.false_eq_true,
      if_false, hr]
  | ok u => cases u; constructor <;> simp only [elf2uf2, h, hne, hram, Bool.false_eq_true,
      if_false, hr]

theorem elf2uf2_ok_inv {opts : Opts} {inp : Input}
    (h : (elf2uf2 opts inp).result = .ok ()) :
    ∃ pm, read_and_check_elf32_ph_entries inp.segments (validRangesFor inp.header)
        = .ok pm ∧
      pm.isEmpty = false ∧
      (encodeGo opts inp.file pm.length (pm.length - 1) 0 (List.replicate 476 0) pm).1
        = .ok () ∧
      (elf2uf2 opts inp).blocks
        = (encodeGo opts inp.file pm.length (pm.length - 1) 0 (List.replicate 476 0) pm).2.1 := by
  cases hscan : read_and_check_elf32_ph_entries inp.segments (validRangesFor inp.header) with
  | error e =>
    rw [(elf2uf2_scan_err opts inp hscan).1] at h
    cases h
  | ok pm =>
    cases hne : pm.isEmpty with
    | true =>
      have : pm = [] := by
        cases pm with
        | nil => rfl
        | cons p r => simp [List.isEmpty_cons] at hne
      subst this
      rw [(elf2uf2_empty opts inp hscan).1] at h
      cases h
    | false =>
      cases hram : (ramStyle inp.header && inp.header.entry != (firstKey pm ||| 0x1)) with
      | true =>
        rw [(elf2uf2_ram_err opts inp hscan hne hram).1] at h
        cases h
      | false =>
        refine ⟨pm, rfl, hne, ?_, (elf2uf2_encode opts inp hscan hne hram).2⟩
        rw [← (elf2uf2_encode opts inp hscan hne hram).1]
        exact h

/-! ### The claims -/

/-- C3: whenever the program-header scan yields an empty page map (no
loadable bytes), `elf2uf2` fails with an EmptyImageError, and no byte has
been written to the output stream (the event trace is empty). -/
theorem c3_empty_image (opts : Opts) (inp : Input)
    (h : read_and_check_elf32_ph_entries inp.segments (validRangesFor inp.header)
      = .ok []) :
    (elf2uf2 opts inp).result = .error .emptyImage ∧
      (elf2uf2 opts inp).events = [] := by
  obtain ⟨h1, h2⟩ := elf2uf2_empty opts inp h
  refine ⟨h1, ?_⟩
  rw [Runout.events, h2]
  rfl

/-- Witness for C3 at a concrete input with one non-loadable entry. -/
theorem c3_empty_image_witness :
    (elf2uf2 exOpts exEmpty).result = .error .emptyImage ∧
      (elf2uf2 exOpts exEmpty).events = [] :=
  c3_empty_image exOpts exEmpty (by decide)

/-- C4: the binary is classified RAM iff the topmost nibble of the 32-bit
entry point equals the fixed RAM-indicator value `0x2`, and the address
ranges used for all segment validation are the RAM set exactly in that
case, the FLASH set otherwise. -/
theorem c4_style_and_ranges (eh : ElfHeader) (h : eh.entry < 2 ^ 32) :
    (ramStyle eh = true ↔ eh.entry / 2 ^ 28 % 16 = 0x2) ∧
      validRangesFor eh =
        (if eh.entry / 2 ^ 28 % 16 = 0x2 then RP2040_ADDRESS_RANGES_RAM
         else RP2040_ADDRESS_RANGES_FLASH) := by
  have hdiv : eh.entry / 2 ^ 28 < 16 := by omega
  have hmod : eh.entry / 2 ^ 28 % 16 = eh.entry / 2 ^ 28 := Nat.mod_eq_of_lt hdiv
  have hiff : ramStyle eh = true ↔ eh.entry / 2 ^ 28 % 16 = 0x2 := by
    rw [ramStyle, Nat.shiftRight_eq_div_pow, beq_iff_eq, hmod]
  refine ⟨hiff, ?_⟩
  by_cases hc : eh.entry / 2 ^ 28 % 16 = 0x2
  · rw [validRangesFor, if_pos (hiff.mpr hc), if_pos hc]
  · have hf : ramStyle eh = false := by
      rw [Bool.eq_false_iff]
      intro hx
      exact hc (hiff.mp hx)
    rw [validRangesFor, hf, if_neg hc]
    rfl

/-- Witness for C4 at the concrete entry point `0x20000000`. -/
theorem c4_style_and_ranges_witness :
    ((ramStyle ⟨0x20000000⟩ = true ↔ 0x20000000 / 2 ^ 28 % 16 = 0x2) ∧
      validRangesFor ⟨0x20000000⟩ =
        (if 0x20000000 / 2 ^ 28 % 16 = 0x2 then RP2040_ADDRESS_RANGES_RAM
         else RP2040_ADDRESS_RANGES_FLASH)) :=
  c4_style_and_ranges ⟨0x20000000⟩ (by decide)

/-- C7: whatever the order of the loadable segments in the input, the
emitted blocks' target addresses are strictly increasing (the encoding
loop visits the page map in ascending key order). -/
theorem c7_ascending_targets (opts : Opts) (inp : Input) :
    List.Sorted (· < ·)
      ((elf2uf2 opts inp).blocks.map (fun b => b.header.target_addr)) := by
  cases hscan : read_and_check_elf32_ph_entries inp.segments
      (validRangesFor inp.header) with
  | error e =>
    rw [(elf2uf2_scan_err opts inp hscan).2]
    simp
  | ok pm =>
    have hsorted := phScan_sorted hscan
    cases hne : pm.isEmpty with
    | true =>
      rw [(elf2uf2_empty opts inp (by
        cases pm with
        | nil => exact hscan
        | cons p r => simp [List.isEmpty_cons] at hne)).2]
      simp
    | false =>
      cases hram : (ramStyle inp.header && inp.header.entry != (firstKey pm ||| 0x1)) with
      | true =>
        rw [(elf2uf2_ram_err opts inp hscan hne hram).2]
        simp
      | false =>
        rw [(elf2uf2_encode opts inp hscan hne hram).2]
        exact List.Pairwise.sublist
          (encodeGo_prefix_targets opts).sublist hsorted

/-- C10: the translation result and the bytes written to the output
stream depend only on the input; the verbose and deploy flags influence
only console diagnostics. -/
theorem c10_flags_do_not_affect_output (o1 o2 : Opts) (inp : Input) :
    (elf2uf2 o1 inp).result = (elf2uf2 o2 inp).result ∧
      (elf2uf2 o1 inp).blocks = (elf2uf2 o2 inp).blocks ∧
      eventsBytes (elf2uf2 o1 inp).events = eventsBytes (elf2uf2 o2 inp).events := by
  have hmain : (elf2uf2 o1 inp).result = (elf2uf2 o2 inp).result ∧
      (elf2uf2 o1 inp).blocks = (elf2uf2 o2 inp).blocks := by
    cases hscan : read_and_check_elf32_ph_entries inp.segments
        (validRangesFor inp.header) with
    | error e =>
      obtain ⟨a1, b1⟩ := elf2uf2_scan_err o1 inp hscan
      obtain ⟨a2, b2⟩ := elf2uf2_scan_err o2 inp hscan
      rw [a1, a2, b1, b2]
      exact ⟨rfl, rfl⟩
    | ok pm =>
      cases hne : pm.isEmpty with
      | true =>
        have hnil : pm = [] := by
          cases pm with
          | nil => rfl
          | cons p r => simp [List.isEmpty_cons] at hne
        subst hnil
        obtain ⟨a1, b1⟩ := elf2uf2_empty o1 inp hscan
        obtain ⟨a2, b2⟩ := elf2uf2_empty o2 inp hscan
        rw [a1, a2, b1, b2]
        exact ⟨rfl, rfl⟩
      | false =>
        cases hram : (ramStyle inp.header &&
            inp.header.entry != (firstKey pm ||| 0x1)) with
        | true =>
          obtain ⟨a1, b1⟩ := elf2uf2_ram_err o1 inp hscan hne hram
          obtain ⟨a2, b2⟩ := elf2uf2_ram_err o2 inp hscan hne hram
          rw [a1, a2, b1, b2]
          exact ⟨rfl, rfl⟩
        | false =>
          obtain ⟨a1, b1⟩ := elf2uf2_encode o1 inp hscan hne hram
          obtain ⟨a2, b2⟩ := elf2uf2_encode o2 inp hscan hne hram
          rw [a1, a2, b1, b2]
          exact ⟨encodeGo_opts.1, by rw [encodeGo_opts.2]⟩
  refine ⟨hmain.1, hmain.2, ?_⟩
  rw [Runout.events, Runout.events, hmain.2]

/-- C1: on a successful run, exactly one block is emitted per distinct
page of the page map (the emitted target addresses are the page keys,
which are pairwise distinct), the block-index fields are exactly
`0, 1, ..., N-1` in emission order, and every block's total-block-count
field equals `N`, the number of pages. -/
theorem c1_block_indices (opts : Opts) (inp : Input)
    (hok : (elf2uf2 opts inp).result = .ok ()) :
    ∃ pm, read_and_check_elf32_ph_entries inp.segments (validRangesFor inp.header)
        = .ok pm ∧
      (elf2uf2 opts inp).blocks.length = pm.length ∧
      (elf2uf2 opts inp).blocks.map (fun b => b.header.block_no)
        = List.range pm.length ∧
      (∀ b ∈ (elf2uf2 opts inp).blocks, b.header.num_blocks = pm.length) ∧
      (elf2uf2 opts inp).blocks.map (fun b => b.header.target_addr)
        = pm.map Prod.fst ∧
      (pm.map Prod.fst).Nodup := by
  obtain ⟨pm, hscan, hne, hencok, hblocks⟩ := elf2uf2_ok_inv hok
  have hbd := phScan_bounded hscan
  have hsorted := phScan_sorted hscan
  have h476 : (List.replicate 476 (0 : Nat)).length = 476 := by
    rw [List.length_replicate]
  have hblk := encodeGo_ok_blocks h476 hbd hencok
  refine ⟨pm, hscan, ?_, ?_, ?_, ?_, hsorted.nodup⟩
  · rw [hblocks, hblk, List.length_map, List.enumFrom_length]
  · rw [hblocks, hblk, List.map_map]
    have hcomp : ((pm.enumFrom 0).map
        ((fun b => b.header.block_no) ∘ (fun p =>
          (⟨mkHeader p.2.1 p.1 pm.length, pageDataD inp.file p.2.2⟩ : Uf2Block))))
        = (pm.enumFrom 0).map Prod.fst := rfl
    rw [hcomp, List.enumFrom_map_fst, ← List.range_eq_range']
  · intro b hb
    rw [hblocks, hblk] at hb
    obtain ⟨p, hp, rfl⟩ := List.mem_map.mp hb
    rfl
  · rw [hblocks, hblk, List.map_map]
    have hcomp : ((pm.enumFrom 0).map
        ((fun b => b.header.target_addr) ∘ (fun p =>
          (⟨mkHeader p.2.1 p.1 pm.length, pageDataD inp.file p.2.2⟩ : Uf2Block))))
        = (pm.enumFrom 0).map (Prod.fst ∘ Prod.snd) := rfl
    rw [hcomp, ← List.map_map, List.enumFrom_map_snd]

/-- Witness for C1 at a concrete one-page FLASH input. -/
theorem c1_block_indices_witness :
    (elf2uf2 exOpts exFlash).result = .ok () ∧
      (∃ pm, read_and_check_elf32_ph_entries exFlash.segments
          (validRangesFor exFlash.header) = .ok pm ∧
        (elf2uf2 exOpts exFlash).blocks.length = pm.length ∧
        (elf2uf2 exOpts exFlash).blocks.map (fun b => b.header.block_no)
          = List.range pm.length ∧
        (∀ b ∈ (elf2uf2 exOpts exFlash).blocks, b.header.num_blocks = pm.length) ∧
        (elf2uf2 exOpts exFlash).blocks.map (fun b => b.header.target_addr)
          = pm.map Prod.fst ∧
        (pm.map Prod.fst).Nodup) :=
  ⟨by decide, c1_block_indices exOpts exFlash (by decide)⟩

/-- C2: for a RAM-style input with a non-empty page map, translation
fails with the entry-point RangeError unless the header entry equals the
lowest page address with the low bit set; when they are equal the check
passes and the run continues with the encoding loop. -/
theorem c2_ram_entry_point (opts : Opts) (inp : Input) (pm : PageMap)
    (hram : ramStyle inp.header = true)
    (hscan : read_and_check_elf32_ph_entries inp.segments (validRangesFor inp.header)
      = .ok pm)
    (hne : pm ≠ []) :
    (inp.header.entry ≠ (firstKey pm ||| 0x1) →
      (elf2uf2 opts inp).result
        = .error (.rangeEntryPoint (firstKey pm ||| 0x1) inp.header.entry)) ∧
    (inp.header.entry = (firstKey pm ||| 0x1) →
      (elf2uf2 opts inp).result
        = (encodeGo opts inp.file pm.length (pm.length - 1) 0
            (List.replicate 476 0) pm).1) := by
  have hne' : pm.isEmpty = false := by
    cases pm with
    | nil => exact absurd rfl hne
    | cons p r => rfl
  constructor
  · intro hneq
    have hcond : (ramStyle inp.header &&
        inp.header.entry != (firstKey pm ||| 0x1)) = true := by
      rw [hram, Bool.true_and, bne_iff_ne]
      exact hneq
    exact (elf2uf2_ram_err opts inp hscan hne' hcond).1
  · intro heq
    have hcond : (ramStyle inp.header &&
        inp.header.entry != (firstKey pm ||| 0x1)) = false := by
      rw [heq]
      simp
    exact (elf2uf2_encode opts inp hscan hne' hcond).1

/-- Witness for C2 at a concrete RAM input whose entry point has the
wrong low bits. -/
theorem c2_ram_entry_point_witness :
    (elf2uf2 exOpts exRamBad).result
      = .error (.rangeEntryPoint
          (firstKey [(0x20000000, [⟨0, 4, 0⟩])] ||| 0x1) exRamBad.header.entry) :=
  (c2_ram_entry_point exOpts exRamBad [(0x20000000, [⟨0, 4, 0⟩])]
    (by decide) (by decide) (by decide)).1 (by decide)

set_option maxRecDepth 4000 in
/-- C5: a FLASH-style run performs no entry-point/page-address coupling
check: two inputs identical except for their (FLASH-classified) entry
points produce identical runs, and a FLASH-style run can never fail with
the RAM entry-point RangeError. -/
theorem c5_flash_no_entry_check (opts : Opts) (segs : List PHEntry)
    (file : List Nat) (e e' : Nat)
    (h1 : ramStyle ⟨e⟩ = false) (h2 : ramStyle ⟨e'⟩ = false) :
    elf2uf2 opts ⟨⟨e⟩, segs, file⟩ = elf2uf2 opts ⟨⟨e'⟩, segs, file⟩ ∧
      ∀ ex ac, (elf2uf2 opts ⟨⟨e⟩, segs, file⟩).result
        ≠ .error (.rangeEntryPoint ex ac) := by
  constructor
  · simp only [elf2uf2, validRangesFor, h1, h2, Bool.false_and, Bool.false_eq_true,
      if_false]
  · intro ex ac
    have hvr : validRangesFor ⟨e⟩ = RP2040_ADDRESS_RANGES_FLASH := by
      rw [validRangesFor, h1]
      rfl
    cases hscan : read_and_check_elf32_ph_entries segs (validRangesFor ⟨e⟩) with
    | error e0 =>
      rw [(elf2uf2_scan_err opts ⟨⟨e⟩, segs, file⟩ hscan).1]
      obtain ⟨a, l, rfl⟩ := phScanGo_err hscan
      intro hc
      cases hc
    | ok pm =>
      cases hnil : pm.isEmpty with
      | true =>
        have : pm = [] := by
          cases pm with
          | nil => rfl
          | cons p r => simp [List.isEmpty_cons] at hnil
        subst this
        rw [(elf2uf2_empty opts ⟨⟨e⟩, segs, file⟩ hscan).1]
        intro hc
        cases hc
      | false =>
        have hcond : (ramStyle (⟨⟨e⟩, segs, file⟩ : Input).header &&
            (⟨⟨e⟩, segs, file⟩ : Input).header.entry != (firstKey pm ||| 0x1))
            = false := by
          rw [show (⟨⟨e⟩, segs, file⟩ : Input).header = ⟨e⟩ from rfl, h1,
            Bool.false_and]
        rw [(elf2uf2_encode opts ⟨⟨e⟩, segs, file⟩ hscan
          hnil hcond).1]
        cases henc : (encodeGo opts file pm.length (pm.length - 1) 0
            (List.replicate 476 0) pm).1 with
        | error e0 =>
          rw [encodeGo_err henc]
          intro hc
          cases hc
        | ok u =>
          intro hc
          cases hc

/-- Witness for C5 at two concrete FLASH entry points over the same
segments and file bytes. -/
theorem c5_flash_no_entry_check_witness :
    (elf2uf2 exOpts ⟨⟨0x10000001⟩, [⟨1, 0, 0x10000000, 4, 4⟩], [1, 2, 3, 4]⟩
        = elf2uf2 exOpts ⟨⟨0x10BEEF01⟩, [⟨1, 0, 0x10000000, 4, 4⟩], [1, 2, 3, 4]⟩) ∧
      ∀ ex ac, (elf2uf2 exOpts ⟨⟨0x10000001⟩, [⟨1, 0, 0x10000000, 4, 4⟩],
          [1, 2, 3, 4]⟩).result ≠ .error (.rangeEntryPoint ex ac) :=
  c5_flash_no_entry_check exOpts [⟨1, 0, 0x10000000, 4, 4⟩] [1, 2, 3, 4]
    0x10000001 0x10BEEF01 (by decide) (by decide)

/-- C6: on a successful run, the byte stream per page is exactly: one
write of the block header (start magic 0, start magic 1, family-id flag,
the page's target address, payload size = page size, the block index, the
total block count, the family identifier, each as 4 little-endian bytes),
one write of the full 476-byte data buffer, one write of the end magic,
and then a flush — in that order, for the pages in map order. -/
theorem c6_wire_order (opts : Opts) (inp : Input)
    (hok : (elf2uf2 opts inp).result = .ok ()) :
    ∃ pm, read_and_check_elf32_ph_entries inp.segments (validRangesFor inp.header)
        = .ok pm ∧
      (elf2uf2 opts inp).events = wireEvents inp.file pm.length pm ∧
      ∀ p ∈ pm, (pageDataD inp.file p.2).length = 476 := by
  obtain ⟨pm, hscan, hne, hencok, hblocks⟩ := elf2uf2_ok_inv hok
  have hbd := phScan_bounded hscan
  have h476 : (List.replicate 476 (0 : Nat)).length = 476 := by
    rw [List.length_replicate]
  have hblk := encodeGo_ok_blocks h476 hbd hencok
  refine ⟨pm, hscan, ?_, ?_⟩
  · rw [Runout.events, hblocks, hblk, wireEvents, List.map_map]
    rfl
  · intro p hp
    obtain ⟨d, hd⟩ := encodeGo_ok_realize h476 hbd hencok p hp
    have hfb : fragsBounded p.2 := hbd p hp
    have hps : PAGE_SIZE ≤ (List.replicate 476 (0 : Nat)).length := by
      rw [List.length_replicate]
      decide
    have hlen := realize_page_ok_length hfb hps hd
    simp only [pageDataD, hd]
    rw [hlen, List.length_replicate]

/-- Witness for C6 at a concrete one-page FLASH input. -/
theorem c6_wire_order_witness :
    (elf2uf2 exOpts exFlash).result = .ok () ∧
      (∃ pm, read_and_check_elf32_ph_entries exFlash.segments
          (validRangesFor exFlash.header) = .ok pm ∧
        (elf2uf2 exOpts exFlash).events = wireEvents exFlash.file pm.length pm ∧
        ∀ p ∈ pm, (pageDataD exFlash.file p.2).length = 476) :=
  ⟨by decide, c6_wire_order exOpts exFlash (by decide)⟩

/-- C8: when `elf2uf2` returns an error, `main` deletes the output file
it created before propagating, so no partial output file survives; and
the core itself only ever appends to the flushed block stream (the blocks
emitted for a page-map prefix are a prefix of the blocks emitted for any
extension), never removing or rewriting flushed bytes. -/
theorem c8_cleanup_on_error (opts : Opts) (inp : Input) (e : Err)
    (file : List Nat) (N L pn : Nat) (buf : List Nat) (l1 l2 : PageMap)
    (h : (mainModel opts inp).1 = .error e) :
    (mainModel opts inp).2 = none ∧
      (encodeGo opts file N L pn buf l1).2.1 <+:
        (encodeGo opts file N L pn buf (l1 ++ l2)).2.1 := by
  refine ⟨?_, encodeGo_prefix_append⟩
  cases hres : (elf2uf2 opts inp).result with
  | ok u =>
    cases u
    simp only [mainModel, hres] at h
    cases h
  | error e0 =>
    simp only [mainModel, hres]

/-- Witness for C8 at a concrete failing input and a concrete page-map
extension. -/
theorem c8_cleanup_on_error_witness :
    (mainModel exOpts exEmpty).1 = .error .emptyImage ∧
      ((mainModel exOpts exEmpty).2 = none ∧
        (encodeGo exOpts [1, 2, 3, 4] 2 1 0 (List.replicate 476 0)
            [(0x10000000, [⟨0, 4, 0⟩])]).2.1 <+:
          (encodeGo exOpts [1, 2, 3, 4] 2 1 0 (List.replicate 476 0)
            ([(0x10000000, [⟨0, 4, 0⟩])] ++ [(0x10000100, [])])).2.1) :=
  ⟨by decide,
    c8_cleanup_on_error exOpts exEmpty .emptyImage [1, 2, 3, 4] 2 1 0
      (List.replicate 476 0) [(0x10000000, [⟨0, 4, 0⟩])] [(0x10000100, [])]
      (by decide)⟩

/-- C9: every emitted block was materialized from a freshly zeroed
buffer, so its 476-byte data region is zero at every position not covered
by a fragment of that specific page — no byte of an earlier page leaks
into the padding of a later block. -/
theorem c9_padding_zero (opts : Opts) (inp : Input) (pm : PageMap)
    (hscan : read_and_check_elf32_ph_entries inp.segments (validRangesFor inp.header)
      = .ok pm)
    (b : Uf2Block) (hb : b ∈ (elf2uf2 opts inp).blocks) :
    ∃ fs, (b.header.target_addr, fs) ∈ pm ∧ b.data.length = 476 ∧
      ∀ j, j < 476 → uncovered fs j → b.data.getD j 0 = 0 := by
  have hbd := phScan_bounded hscan
  have h476 : (List.replicate 476 (0 : Nat)).length = 476 := by
    rw [List.length_replicate]
  cases hne : pm.isEmpty with
  | true =>
    have hnil : pm = [] := by
      cases pm with
      | nil => rfl
      | cons p r => simp [List.isEmpty_cons] at hne
    subst hnil
    rw [(elf2uf2_empty opts inp hscan).2] at hb
    cases hb
  | false =>
    cases hram : (ramStyle inp.header && inp.header.entry != (firstKey pm ||| 0x1)) with
    | true =>
      rw [(elf2uf2_ram_err opts inp hscan hne hram).2] at hb
      cases hb
    | false =>
      rw [(elf2uf2_encode opts inp hscan hne hram).2] at hb
      obtain ⟨fs, hmem, hrl⟩ := encodeGo_mem h476 hbd b hb
      have hfb : fragsBounded fs := hbd (b.header.target_addr, fs) hmem
      have hps : PAGE_SIZE ≤ (List.replicate 476 (0 : Nat)).length := by
        rw [List.length_replicate]
        decide
      refine ⟨fs, hmem, ?_, ?_⟩
      · rw [realize_page_ok_length hfb hps hrl, List.length_replicate]
      · intro j hj hu
        rw [realize_page_ok_untouched hfb hps hu hrl,
          List.getD_eq_getElem?_getD, List.getElem?_replicate, if_pos hj]
        rfl

set_option maxRecDepth 100000 in
/-- Witness for C9 at a concrete one-page FLASH input: positions 4..475
of the single emitted block are padding and decode to zero. -/
theorem c9_padding_zero_witness :
    ∃ fs, ((⟨mkHeader 0x10000000 0 1,
          [1, 2, 3, 4] ++ List.replicate 472 0⟩ : Uf2Block).header.target_addr, fs)
        ∈ [((0x10000000 : Nat), [(⟨0, 4, 0⟩ : Fragment)])] ∧
      (⟨mkHeader 0x10000000 0 1,
          [1, 2, 3, 4] ++ List.replicate 472 0⟩ : Uf2Block).data.length = 476 ∧
      ∀ j, j < 476 → uncovered fs j →
        (⟨mkHeader 0x10000000 0 1,
          [1, 2, 3, 4] ++ List.replicate 472 0⟩ : Uf2Block).data.getD j 0 = 0 :=
  c9_padding_zero exOpts exFlash [(0x10000000, [⟨0, 4, 0⟩])] (by decide)
    ⟨mkHeader 0x10000000 0 1, [1, 2, 3, 4] ++ List.replicate 472 0⟩ (by decide)

end Elf2Uf2
